import Mathlib

/-!
# Verification of the Pixel-no-Kiseki pixel editor core (`app.js`)

Shallow embedding of the editor's core algorithms and state management:

* the snapshot history (`State.saveHistory` / `State.performUndo` /
  `State.performRedo`, `app.js` lines 42-61);
* the brush stamp (`ToolManager.drawPixel`, lines 219-234);
* the Bresenham line walk (`ToolManager.drawLine`, lines 236-247);
* the queue-based flood fill (`ToolManager.floodFill`, lines 249-268)
  together with `colorsMatch` and `hexToRgb` (lines 288-293);
* the interaction entry point (`ToolManager.execute`, lines 192-217) and the
  mouse handlers that commit history snapshots (lines 670-760);
* the color UI's `buildColor` (lines 431-434).

JavaScript numbers are embedded as `Int` (all the arithmetic in the relevant
code paths is exact integer arithmetic), JS arrays used as stacks/queues as
`List` (push = append at the tail, `shift` = `tail`, `pop` = drop last), and
the RGBA image data as a function from cell coordinates to a quadruple of
channel values (every access in the modelled code paths is in bounds, where
the flat `(y*width+x)*4` indexing of the source is injective).
-/

namespace PixelNoKiseki

/-! ## History management (`State`, app.js lines 42-61)

The snapshot type is abstract (`α`): the source stores data-URL strings, and
nothing in the history logic inspects them. -/

/-- The two history stacks of `State`.  The JS arrays grow at the tail:
`push` appends, `pop` removes the last element, `shift` removes the head. -/
structure HState (α : Type) where
  history : List α
  redoStack : List α
  deriving DecidableEq, Repr

/-- `this.maxHistory = 50` (app.js line 24). -/
def maxHistory : Nat := 50

/-- `State.saveHistory` (app.js lines 42-47): push the snapshot, shift the
oldest entry if the length now exceeds `maxHistory`, clear the redo stack. -/
def saveHistory {α : Type} (s : HState α) (d : α) : HState α :=
  let pushed := s.history ++ [d]
  { history := if maxHistory < pushed.length then pushed.tail else pushed,
    redoStack := [] }

/-- `State.performUndo` (app.js lines 49-54): no-op when `history.length ≤ 1`;
otherwise pop the top into `redoStack` and return the new top (which stays in
`history`). -/
def performUndo {α : Type} (s : HState α) : Option α × HState α :=
  if s.history.length ≤ 1 then (none, s)
  else
    match s.history.getLast? with
    | none => (none, s)
    | some cur =>
        (s.history.dropLast.getLast?,
         { history := s.history.dropLast, redoStack := s.redoStack ++ [cur] })

/-- `State.performRedo` (app.js lines 56-61): no-op when `redoStack` is empty;
otherwise pop from `redoStack`, push back onto `history`, and return it. -/
def performRedo {α : Type} (s : HState α) : Option α × HState α :=
  match s.redoStack.getLast? with
  | none => (none, s)
  | some nxt =>
      (some nxt,
       { history := s.history ++ [nxt], redoStack := s.redoStack.dropLast })

/-- The last `n` elements of a list, in order. -/
def takeLast {α : Type} (n : Nat) (xs : List α) : List α :=
  xs.drop (xs.length - n)

theorem takeLast_length_le {α : Type} (n : Nat) (xs : List α) :
    (takeLast n xs).length ≤ n := by
  simp only [takeLast, List.length_drop]
  omega

theorem takeLast_of_length_le {α : Type} {n : Nat} {xs : List α}
    (h : xs.length ≤ n) : takeLast n xs = xs := by
  simp only [takeLast, Nat.sub_eq_zero_of_le h, List.drop_zero]

theorem saveHistory_history_eq {α : Type} (s : HState α) (d : α) :
    (saveHistory s d).history =
      if 50 < (s.history ++ [d]).length then (s.history ++ [d]).tail
      else s.history ++ [d] := rfl

theorem saveHistory_redoStack {α : Type} (s : HState α) (d : α) :
    (saveHistory s d).redoStack = [] := rfl

theorem saveHistory_history {α : Type} (s : HState α) (d : α)
    (h : s.history.length ≤ 50) :
    (saveHistory s d).history = takeLast 50 (s.history ++ [d]) := by
  rw [saveHistory_history_eq]
  by_cases hlt : 50 < (s.history ++ [d]).length
  · have hlen : (s.history ++ [d]).length = 51 := by
      simp only [List.length_append, List.length_singleton] at hlt ⊢
      omega
    rw [if_pos hlt]
    simp only [takeLast, hlen]
    rw [show (51 - 50 : Nat) = 1 from rfl, List.drop_one]
  · rw [if_neg hlt, takeLast_of_length_le (Nat.not_lt.mp hlt)]

theorem takeLast_append_takeLast {α : Type} (n : Nat) (a b : List α) :
    takeLast n (takeLast n a ++ b) = takeLast n (a ++ b) := by
  rcases le_or_lt a.length n with hle | hlt
  · rw [takeLast_of_length_le hle]
  · have h2 : a.length - (a.length - n) = n := by omega
    have h3 : n + b.length - n = b.length := by omega
    have h4 : a.length - n + b.length = a.length + b.length - n := by omega
    have key : List.drop (a.length - n) (a ++ b)
        = List.drop (a.length - n) a ++ b := by
      rw [List.drop_append_eq_append_drop]
      have h5 : a.length - n - a.length = 0 := by omega
      rw [h5, List.drop_zero]
    simp only [takeLast, List.length_append, List.length_drop, h2, h3]
    rw [← key, List.drop_drop, h4]

theorem foldl_saveHistory {α : Type} (l : List α) (s : HState α)
    (h : s.history.length ≤ 50) :
    (List.foldl saveHistory s l).history = takeLast 50 (s.history ++ l) := by
  induction l generalizing s with
  | nil => simp only [List.foldl_nil, List.append_nil, takeLast_of_length_le h]
  | cons d l ih =>
      have hstep := saveHistory_history s d h
      have hlen : (saveHistory s d).history.length ≤ 50 := by
        rw [hstep]; exact takeLast_length_le _ _
      calc (List.foldl saveHistory s (d :: l)).history
          = (List.foldl saveHistory (saveHistory s d) l).history := by
            simp only [List.foldl_cons]
        _ = takeLast 50 ((saveHistory s d).history ++ l) := ih _ hlen
        _ = takeLast 50 (takeLast 50 (s.history ++ [d]) ++ l) := by rw [hstep]
        _ = takeLast 50 ((s.history ++ [d]) ++ l) :=
            takeLast_append_takeLast 50 _ l
        _ = takeLast 50 (s.history ++ (d :: l)) := by
            rw [List.append_assoc, List.singleton_append]

/-- After any `saveHistory`, the history is some list ending in the pushed
snapshot (shifting removes only the head). -/
theorem saveHistory_shape {α : Type} (s : HState α) (d : α) :
    ∃ l, (saveHistory s d).history = l ++ [d] := by
  by_cases hlt : 50 < (s.history ++ [d]).length
  · cases hh : s.history with
    | nil =>
        exfalso
        rw [hh] at hlt
        simp at hlt
    | cons a r =>
        refine ⟨r, ?_⟩
        rw [saveHistory_history_eq, if_pos hlt, hh]
        simp
  · exact ⟨s.history, by rw [saveHistory_history_eq, if_neg hlt]⟩

/-- After two consecutive saves, the history ends in the two pushed
snapshots, in order. -/
theorem saveHistory_saveHistory_shape {α : Type} (s : HState α) (S1 S2 : α) :
    ∃ l, (saveHistory (saveHistory s S1) S2).history = l ++ [S1, S2] := by
  obtain ⟨l1, h1⟩ := saveHistory_shape s S1
  have h2 : (saveHistory (saveHistory s S1) S2).history =
      if 50 < (l1 ++ [S1] ++ [S2]).length then (l1 ++ [S1] ++ [S2]).tail
      else l1 ++ [S1] ++ [S2] := by
    rw [saveHistory_history_eq, h1]
  by_cases hlt : 50 < (l1 ++ [S1] ++ [S2]).length
  · cases l1 with
    | nil =>
        exfalso
        simp at hlt
    | cons a r =>
        refine ⟨r, ?_⟩
        rw [h2, if_pos hlt]
        simp
  · refine ⟨l1, ?_⟩
    rw [h2, if_neg hlt]
    simp

/-- `performUndo` on a history of the form `l ++ [a]` with `l` nonempty:
returns the top of `l`, keeps `l` as the history, pushes `a` onto the redo
stack. -/
theorem performUndo_concat {α : Type} (s : HState α) (l : List α) (a : α)
    (hh : s.history = l ++ [a]) (hl : l ≠ []) :
    performUndo s
      = (l.getLast?,
         { history := l, redoStack := s.redoStack ++ [a] }) := by
  have hlen : ¬ s.history.length ≤ 1 := by
    rw [hh]
    cases l with
    | nil => exact absurd rfl hl
    | cons b r => simp only [List.length_append, List.length_cons]; omega
  have hlast : s.history.getLast? = some a := by
    rw [hh]; exact List.getLast?_concat _
  have hdrop : s.history.dropLast = l := by
    rw [hh]; exact List.dropLast_concat
  simp only [performUndo, if_neg hlen, hlast, hdrop]

/-- `performRedo` on a redo stack of the form `r ++ [a]`: returns `a`,
appends it to the history, drops it from the redo stack. -/
theorem performRedo_concat {α : Type} (s : HState α) (r : List α) (a : α)
    (hr : s.redoStack = r ++ [a]) :
    performRedo s
      = (some a, { history := s.history ++ [a], redoStack := r }) := by
  have hlast : s.redoStack.getLast? = some a := by
    rw [hr]; exact List.getLast?_concat _
  have hdrop : s.redoStack.dropLast = r := by
    rw [hr]; exact List.dropLast_concat
  simp only [performRedo, hlast, hdrop]

/-- C5: after `saveHistory S1` then `saveHistory S2`, `performUndo` returns
`S1`, moves `S2` onto `redoStack` while `S1` stays as the top of `history`,
and an immediate `performRedo` returns `S2`. -/
theorem undo_redo_roundtrip_after_two_saves {α : Type}
    (s : HState α) (S1 S2 : α) :
    (performUndo (saveHistory (saveHistory s S1) S2)).1 = some S1 ∧
    (performUndo (saveHistory (saveHistory s S1) S2)).2.history.getLast?
      = some S1 ∧
    (performUndo (saveHistory (saveHistory s S1) S2)).2.redoStack = [S2] ∧
    (performRedo
        (performUndo (saveHistory (saveHistory s S1) S2)).2).1 = some S2 := by
  obtain ⟨l, hl⟩ := saveHistory_saveHistory_shape s S1 S2
  have hl' : (saveHistory (saveHistory s S1) S2).history
      = (l ++ [S1]) ++ [S2] := by
    rw [hl, List.append_assoc]; rfl
  have hundo := performUndo_concat _ (l ++ [S1]) S2 hl' (by simp)
  rw [saveHistory_redoStack] at hundo
  have hredo := performRedo_concat
      (performUndo (saveHistory (saveHistory s S1) S2)).2 [] S2
      (by rw [hundo])
  refine ⟨?_, ?_, ?_, ?_⟩
  · rw [hundo]; exact List.getLast?_concat _
  · rw [hundo]; exact List.getLast?_concat _
  · rw [hundo]; simp
  · rw [hredo]

/-- C10: with at least two history entries, `performUndo` followed by
`performRedo` restores both stacks exactly, and `performRedo` returns the
snapshot `performUndo` moved onto `redoStack` (the old history top). -/
theorem undo_then_redo_restores {α : Type} (s : HState α)
    (h2 : 2 ≤ s.history.length) :
    (performRedo (performUndo s).2).2 = s ∧
    (performRedo (performUndo s).2).1 = s.history.getLast? := by
  have hne : s.history ≠ [] := by
    intro h; rw [h] at h2; simp at h2
  have hsplit : s.history = s.history.dropLast ++ [s.history.getLast hne] :=
    (List.dropLast_append_getLast hne).symm
  have hdne : s.history.dropLast ≠ [] := by
    intro h
    have := congrArg List.length hsplit
    rw [h] at this
    simp at this
    omega
  have hundo := performUndo_concat s _ _ hsplit hdne
  have hredo := performRedo_concat (performUndo s).2
      s.redoStack (s.history.getLast hne) (by rw [hundo])
  constructor
  · rw [hredo, hundo]
    have hh : s.history.dropLast ++ [s.history.getLast hne] = s.history :=
      List.dropLast_append_getLast hne
    cases s with
    | mk h r => simp_all
  · rw [hredo]
    exact (List.getLast?_eq_getLast _ hne).symm

/-- C10 witness: a concrete state with two history entries. -/
theorem undo_then_redo_restores_witness :
    (performRedo (performUndo (⟨[0, 1], [5]⟩ : HState Nat)).2).2
        = (⟨[0, 1], [5]⟩ : HState Nat) ∧
    (performRedo (performUndo (⟨[0, 1], [5]⟩ : HState Nat)).2).1
        = ([0, 1] : List Nat).getLast? :=
  undo_then_redo_restores (⟨[0, 1], [5]⟩ : HState Nat) (by decide)

/-- C6: starting from an empty history, 60 saves leave exactly the 50 most
recent snapshots in oldest-first order; a save from a history of at most 50
entries keeps the length at most 50, evicting the oldest entry exactly on
overflow; and every save clears `redoStack`. -/
theorem history_cap_eviction {α : Type} :
    (∀ (l : List α) (r0 : List α), l.length = 60 →
        (List.foldl saveHistory ⟨[], r0⟩ l).history = l.drop 10) ∧
    (∀ (s : HState α) (d : α), s.history.length ≤ 50 →
        (saveHistory s d).history.length ≤ 50 ∧
        (s.history.length = 50 →
          (saveHistory s d).history = s.history.tail ++ [d])) ∧
    (∀ (s : HState α) (d : α), (saveHistory s d).redoStack = []) := by
  refine ⟨?_, ?_, ?_⟩
  · intro l r0 hl
    have h0 : (⟨[], r0⟩ : HState α).history.length ≤ 50 := by simp
    rw [foldl_saveHistory l _ h0]
    simp only [takeLast, List.nil_append, hl]
  · intro s d h
    constructor
    · rw [saveHistory_history s d h]; exact takeLast_length_le _ _
    · intro h50
      have hlt : maxHistory < (s.history ++ [d]).length := by
        simp only [maxHistory, List.length_append, List.length_singleton, h50]
        omega
      simp only [saveHistory, if_pos hlt]
      cases hh : s.history with
      | nil => rw [hh] at h50; simp at h50
      | cons a r => simp
  · intro s d; rfl

/-- C6 witness: 60 concrete snapshots pushed onto an empty history leave the
last 50; a length-50 history evicts its oldest entry on the next save. -/
theorem history_cap_eviction_witness :
    (List.foldl saveHistory (⟨[], []⟩ : HState Nat) (List.range 60)).history
        = (List.range 60).drop 10 ∧
    (saveHistory (⟨List.range 50, [7]⟩ : HState Nat) 99).history.length ≤ 50 ∧
    (saveHistory (⟨List.range 50, [7]⟩ : HState Nat) 99).history
        = (List.range 50).tail ++ [99] :=
  ⟨(history_cap_eviction.1 (List.range 60) [] (by simp)),
   ((history_cap_eviction.2.1 (⟨List.range 50, [7]⟩ : HState Nat) 99
      (by simp)).1),
   ((history_cap_eviction.2.1 (⟨List.range 50, [7]⟩ : HState Nat) 99
      (by simp)).2 (by simp))⟩

/-! ## Brush stamp (`ToolManager.drawPixel`, app.js lines 219-234)

`drawPixel(x, y, color)` computes `half = floor(b/2)`, `px = x - half`,
`py = y - half`, clamps the origin to `cx = max(0, px)`, `cy = max(0, py)`,
and fills (or clears) the rectangle of width `cw = min(b, width - cx)` and
height `ch = min(b, height - cy)` at `(cx, cy)`.  A `fillRect`/`clearRect`
with non-positive width or height touches no cell. -/

/-- Whether cell `(i, j)` lies in the rectangle written by
`ToolManager.drawPixel` at center `(x, y)` with brush size `b` on a
`width × height` buffer. -/
def stampHit (width height b : Nat) (x y i j : Int) : Bool :=
  let half : Int := (b : Int) / 2
  let px := x - half
  let py := y - half
  let cx := max 0 px
  let cy := max 0 py
  let cw := min (b : Int) (width - cx)
  let ch := min (b : Int) (height - cy)
  decide (cx ≤ i) && decide (i < cx + cw) &&
    decide (cy ≤ j) && decide (j < cy + ch)

/-- Modelled from the claim's wording: membership in the intersection of the
square `[x - ⌊b/2⌋, x - ⌊b/2⌋ + b) × [y - ⌊b/2⌋, y - ⌊b/2⌋ + b)` with the
buffer bounds `[0, width) × [0, height)`.  Used only to compare the claim
against the code. -/
def specStampHit (width height b : Nat) (x y i j : Int) : Bool :=
  let half : Int := (b : Int) / 2
  decide (x - half ≤ i) && decide (i < x - half + b) &&
    decide (0 ≤ i) && decide (i < width) &&
    decide (y - half ≤ j) && decide (j < y - half + b) &&
    decide (0 ≤ j) && decide (j < height)

/-- C2 counterexample: a 2×2 brush centered on the top-left corner of a
16×16 buffer stamps cell `(1, 1)`, which is outside the claimed clipped
square `[-1, 1) × [-1, 1) ∩ [0, 16) × [0, 16) = ⟨(0, 0)⟩`: the trailing
edge is not truncated when the unclamped origin is negative. -/
theorem drawPixel_square_intersection_cex :
    stampHit 16 16 2 0 0 1 1 = true ∧
    specStampHit 16 16 2 0 0 1 1 = false := by decide

/-- C2 amended: the stamp is exactly the `b × b` square whose origin is the
*clamped* point `(max 0 (x-⌊b/2⌋), max 0 (y-⌊b/2⌋))`, intersected with the
buffer bounds; this coincides with the claimed intersection whenever the
unclamped origin is non-negative on both axes, but when the origin is
negative the square is shifted inward to start at 0 (keeping its full
`min b width` extent) rather than truncated. -/
theorem drawPixel_stamp_characterization (width height b : Nat)
    (x y i j : Int) :
    (stampHit width height b x y i j = true ↔
      (max 0 (x - (b : Int) / 2) ≤ i ∧
       i < max 0 (x - (b : Int) / 2) + b ∧ i < width ∧
       max 0 (y - (b : Int) / 2) ≤ j ∧
       j < max 0 (y - (b : Int) / 2) + b ∧ j < height)) ∧
    (0 ≤ x - (b : Int) / 2 → 0 ≤ y - (b : Int) / 2 →
      (stampHit width height b x y i j = true ↔
        specStampHit width height b x y i j = true)) := by
  constructor
  · simp only [stampHit, Bool.and_eq_true, decide_eq_true_eq]
    omega
  · intro hx hy
    simp only [stampHit, specStampHit, Bool.and_eq_true, decide_eq_true_eq]
    omega

/-- C2 amended witness: an interior 2×2 stamp, where the clamped and
unclamped descriptions agree. -/
theorem drawPixel_stamp_characterization_witness :
    (0 ≤ (5 : Int) - (2 : Nat) / 2 ∧ 0 ≤ (5 : Int) - (2 : Nat) / 2) ∧
    (stampHit 16 16 2 5 5 4 4 = true ↔
      specStampHit 16 16 2 5 5 4 4 = true) :=
  ⟨⟨by decide, by decide⟩,
   (drawPixel_stamp_characterization 16 16 2 5 5 4 4).2
     (by decide) (by decide)⟩

/-! ## Line rasterization (`ToolManager.drawLine`, app.js lines 236-247)

The loop stamps `(x0, y0)` via `drawPixel`, breaks when the endpoint is
reached, and otherwise advances one or both axes guided by the error
accumulator.  We embed the loop with explicit fuel and record the sequence
of stamped cells; `drawLine_spec` shows the chosen fuel always suffices
(the walk reaches `(x1, y1)` and stops there). -/

/-- Two cells are within Chebyshev distance 1 (8-neighbourhood or equal). -/
def step8 (p q : Int × Int) : Prop :=
  (q.1 - p.1).natAbs ≤ 1 ∧ (q.2 - p.2).natAbs ≤ 1

/-- The `while (true)` loop of `ToolManager.drawLine`, with `dx`, `dy`,
`sx`, `sy` fixed by the caller: stamp, break at the endpoint, else compute
`e2 = 2*err` and conditionally advance each axis. -/
def bresLoop (x1 y1 dx dy sx sy : Int) :
    Nat → Int → Int → Int → List (Int × Int)
  | 0, _, _, _ => []
  | fuel + 1, x0, y0, err =>
      (x0, y0) ::
        (if x0 = x1 ∧ y0 = y1 then []
         else
           let e2 := 2 * err
           let x0' := if e2 > -dy then x0 + sx else x0
           let err' := if e2 > -dy then err - dy else err
           let y0' := if e2 < dx then y0 + sy else y0
           let err'' := if e2 < dx then err' + dx else err'
           bresLoop x1 y1 dx dy sx sy fuel x0' y0' err'')

/-- `ToolManager.drawLine` (app.js lines 236-247): the sequence of stamped
cell centers, in stamping order. -/
def drawLine (x0 y0 x1 y1 : Int) : List (Int × Int) :=
  let dx : Int := (x1 - x0).natAbs
  let dy : Int := (y1 - y0).natAbs
  let sx : Int := if x0 < x1 then 1 else -1
  let sy : Int := if y0 < y1 then 1 else -1
  bresLoop x1 y1 dx dy sx sy
    ((x1 - x0).natAbs + (y1 - y0).natAbs + 1) x0 y0 (dx - dy)

theorem bresLoop_spec (x1 y1 dx dy sx sy : Int)
    (hsx : sx = 1 ∨ sx = -1) (hsy : sy = 1 ∨ sy = -1)
    (hdx : 0 ≤ dx) (hdy : 0 ≤ dy) :
    ∀ (fuel : Nat) (x y err : Int),
      0 ≤ (x1 - x) * sx → (x1 - x) * sx ≤ dx →
      0 ≤ (y1 - y) * sy → (y1 - y) * sy ≤ dy →
      err = dx - dy + dy * ((x1 - x) * sx) - dx * ((y1 - y) * sy) →
      (x1 - x) * sx + (y1 - y) * sy < (fuel : Int) →
      ∃ t, bresLoop x1 y1 dx dy sx sy fuel x y err = (x, y) :: t ∧
        (bresLoop x1 y1 dx dy sx sy fuel x y err).getLast? = some (x1, y1) ∧
        List.Chain' step8 (bresLoop x1 y1 dx dy sx sy fuel x y err) := by
  have hsxsq : sx * sx = 1 := by
    rcases hsx with h | h <;> subst h <;> norm_num
  have hsysq : sy * sy = 1 := by
    rcases hsy with h | h <;> subst h <;> norm_num
  have hsxabs : sx.natAbs = 1 := by
    rcases hsx with h | h <;> subst h <;> rfl
  have hsyabs : sy.natAbs = 1 := by
    rcases hsy with h | h <;> subst h <;> rfl
  intro fuel
  induction fuel with
  | zero =>
      intro x y err hrx0 hrxd hry0 hryd herr hfuel
      exfalso
      simp only [Nat.cast_zero] at hfuel
      linarith
  | succ f ih =>
      intro x y err hrx0 hrxd hry0 hryd herr hfuel
      by_cases hend : x = x1 ∧ y = y1
      · obtain ⟨hx1, hy1⟩ := hend
        subst hx1
        subst hy1
        refine ⟨[], ?_, ?_, ?_⟩ <;> simp [bresLoop]
      · have hne : ¬ ((x1 - x) * sx = 0 ∧ (y1 - y) * sy = 0) := by
          rintro ⟨h1, h2⟩
          apply hend
          constructor
          · rcases mul_eq_zero.mp h1 with h | h
            · omega
            · rcases hsx with e | e <;> omega
          · rcases mul_eq_zero.mp h2 with h | h
            · omega
            · rcases hsy with e | e <;> omega
        have hxadv : -dy < 2 * err → 1 ≤ (x1 - x) * sx := by
          intro hc
          by_contra hnot
          have hrxz : (x1 - x) * sx = 0 := le_antisymm (by linarith) hrx0
          have hry1 : 1 ≤ (y1 - y) * sy := by
            rcases lt_or_eq_of_le hry0 with h | h
            · linarith
            · exact absurd ⟨hrxz, h.symm⟩ hne
          have hmul : dx * 1 ≤ dx * ((y1 - y) * sy) :=
            mul_le_mul_of_nonneg_left hry1 hdx
          rw [hrxz] at herr
          have herr' : err = dx - dy - dx * ((y1 - y) * sy) := by
            rw [herr]; ring
          linarith
        have hyadv : 2 * err < dx → 1 ≤ (y1 - y) * sy := by
          intro hc
          by_contra hnot
          have hryz : (y1 - y) * sy = 0 := le_antisymm (by linarith) hry0
          have hrx1 : 1 ≤ (x1 - x) * sx := by
            rcases lt_or_eq_of_le hrx0 with h | h
            · linarith
            · exact absurd ⟨h.symm, hryz⟩ hne
          have hmul : dy * 1 ≤ dy * ((x1 - x) * sx) :=
            mul_le_mul_of_nonneg_left hrx1 hdy
          rw [hryz] at herr
          have herr' : err = dx - dy + dy * ((x1 - x) * sx) := by
            rw [herr]; ring
          linarith
        have hprog : (-dy < 2 * err) ∨ (2 * err < dx) := by
          by_contra hno
          push_neg at hno
          obtain ⟨h1, h2⟩ := hno
          have hdx0 : dx = 0 := by linarith
          have hdy0 : dy = 0 := by linarith
          exact hne ⟨le_antisymm (by linarith) hrx0,
            le_antisymm (by linarith) hry0⟩
        have hx' : (x1 - (x + sx)) * sx = (x1 - x) * sx - 1 := by
          have h1 : (x1 - (x + sx)) * sx = (x1 - x) * sx - sx * sx := by ring
          rw [h1, hsxsq]
        have hy' : (y1 - (y + sy)) * sy = (y1 - y) * sy - 1 := by
          have h1 : (y1 - (y + sy)) * sy = (y1 - y) * sy - sy * sy := by ring
          rw [h1, hsysq]
        have hfuel' : ((f + 1 : Nat) : Int) = (f : Int) + 1 := by push_cast; ring
        rw [hfuel'] at hfuel
        by_cases hc1 : -dy < 2 * err <;> by_cases hc2 : 2 * err < dx
        · -- both axes advance
          have hrx1 := hxadv hc1
          have hry1 := hyadv hc2
          have hstep : bresLoop x1 y1 dx dy sx sy (f + 1) x y err
              = (x, y) :: bresLoop x1 y1 dx dy sx sy f (x + sx) (y + sy)
                  (err - dy + dx) := by
            simp only [bresLoop, if_neg hend, gt_iff_lt, if_pos hc1,
              if_pos hc2]
          obtain ⟨t, hcons, hlast, hchain⟩ :=
            ih (x + sx) (y + sy) (err - dy + dx)
              (by rw [hx']; linarith) (by rw [hx']; linarith)
              (by rw [hy']; linarith) (by rw [hy']; linarith)
              (by rw [hx', hy', herr]; ring)
              (by rw [hx', hy']; linarith)
          refine ⟨(x + sx, y + sy) :: t, by rw [hstep, hcons], ?_, ?_⟩
          · rw [hstep, hcons, List.getLast?_cons_cons, ← hcons]
            exact hlast
          · rw [hstep, hcons]
            refine List.chain'_cons.mpr ⟨⟨?_, ?_⟩, by rw [← hcons]; exact hchain⟩
            · simp only [step8, add_sub_cancel_left]
              omega
            · simp only [step8, add_sub_cancel_left]
              omega
        · -- only x advances
          have hrx1 := hxadv hc1
          have hstep : bresLoop x1 y1 dx dy sx sy (f + 1) x y err
              = (x, y) :: bresLoop x1 y1 dx dy sx sy f (x + sx) y
                  (err - dy) := by
            simp only [bresLoop, if_neg hend, gt_iff_lt, if_pos hc1,
              if_neg hc2]
          obtain ⟨t, hcons, hlast, hchain⟩ :=
            ih (x + sx) y (err - dy)
              (by rw [hx']; linarith) (by rw [hx']; linarith)
              hry0 hryd
              (by rw [hx', herr]; ring)
              (by rw [hx']; linarith)
          refine ⟨(x + sx, y) :: t, by rw [hstep, hcons], ?_, ?_⟩
          · rw [hstep, hcons, List.getLast?_cons_cons, ← hcons]
            exact hlast
          · rw [hstep, hcons]
            refine List.chain'_cons.mpr ⟨⟨?_, ?_⟩, by rw [← hcons]; exact hchain⟩
            · simp only [step8, add_sub_cancel_left]
              omega
            · simp only [step8, sub_self]
              omega
        · -- only y advances
          have hry1 := hyadv hc2
          have hstep : bresLoop x1 y1 dx dy sx sy (f + 1) x y err
              = (x, y) :: bresLoop x1 y1 dx dy sx sy f x (y + sy)
                  (err + dx) := by
            simp only [bresLoop, if_neg hend, gt_iff_lt, if_neg hc1,
              if_pos hc2]
          obtain ⟨t, hcons, hlast, hchain⟩ :=
            ih x (y + sy) (err + dx)
              hrx0 hrxd
              (by rw [hy']; linarith) (by rw [hy']; linarith)
              (by rw [hy', herr]; ring)
              (by rw [hy']; linarith)
          refine ⟨(x, y + sy) :: t, by rw [hstep, hcons], ?_, ?_⟩
          · rw [hstep, hcons, List.getLast?_cons_cons, ← hcons]
            exact hlast
          · rw [hstep, hcons]
            refine List.chain'_cons.mpr ⟨⟨?_, ?_⟩, by rw [← hcons]; exact hchain⟩
            · simp only [step8, sub_self]
              omega
            · simp only [step8, add_sub_cancel_left]
              omega
        · rcases hprog with h | h
          · exact absurd h hc1
          · exact absurd h hc2

/-- C3: the Bresenham walk terminates, its stamped sequence starts at
`(x0, y0)`, ends exactly at `(x1, y1)` (endpoint inclusive), and consecutive
stamped cells differ by at most 1 in each coordinate (the stamped path is
8-connected end-to-end with no gaps). -/
theorem drawLine_spec (x0 y0 x1 y1 : Int) :
    (drawLine x0 y0 x1 y1).head? = some (x0, y0) ∧
    (drawLine x0 y0 x1 y1).getLast? = some (x1, y1) ∧
    List.Chain' step8 (drawLine x0 y0 x1 y1) := by
  have hsx : (if x0 < x1 then (1 : Int) else -1) = 1 ∨
      (if x0 < x1 then (1 : Int) else -1) = -1 := by
    by_cases h : x0 < x1 <;> simp [h]
  have hsy : (if y0 < y1 then (1 : Int) else -1) = 1 ∨
      (if y0 < y1 then (1 : Int) else -1) = -1 := by
    by_cases h : y0 < y1 <;> simp [h]
  have hrx : (x1 - x0) * (if x0 < x1 then (1 : Int) else -1)
      = ((x1 - x0).natAbs : Int) := by
    by_cases h : x0 < x1
    · rw [if_pos h, mul_one, Int.natAbs_of_nonneg (by omega)]
    · rw [if_neg h]
      have hcast : ((x1 - x0).natAbs : Int) = -(x1 - x0) := by
        rw [← Int.abs_eq_natAbs, abs_of_nonpos (by omega)]
      rw [hcast]; ring
  have hry : (y1 - y0) * (if y0 < y1 then (1 : Int) else -1)
      = ((y1 - y0).natAbs : Int) := by
    by_cases h : y0 < y1
    · rw [if_pos h, mul_one, Int.natAbs_of_nonneg (by omega)]
    · rw [if_neg h]
      have hcast : ((y1 - y0).natAbs : Int) = -(y1 - y0) := by
        rw [← Int.abs_eq_natAbs, abs_of_nonpos (by omega)]
      rw [hcast]; ring
  obtain ⟨t, hcons, hlast, hchain⟩ :=
    bresLoop_spec x1 y1 ((x1 - x0).natAbs : Int) ((y1 - y0).natAbs : Int)
      (if x0 < x1 then (1 : Int) else -1) (if y0 < y1 then (1 : Int) else -1)
      hsx hsy (by positivity) (by positivity)
      ((x1 - x0).natAbs + (y1 - y0).natAbs + 1) x0 y0
      (((x1 - x0).natAbs : Int) - ((y1 - y0).natAbs : Int))
      (by rw [hrx]; positivity) (by rw [hrx])
      (by rw [hry]; positivity) (by rw [hry])
      (by rw [hrx, hry]; ring)
      (by rw [hrx, hry]; push_cast; omega)
  have hdef : drawLine x0 y0 x1 y1
      = bresLoop x1 y1 ((x1 - x0).natAbs : Int) ((y1 - y0).natAbs : Int)
          (if x0 < x1 then (1 : Int) else -1)
          (if y0 < y1 then (1 : Int) else -1)
          ((x1 - x0).natAbs + (y1 - y0).natAbs + 1) x0 y0
          (((x1 - x0).natAbs : Int) - ((y1 - y0).natAbs : Int)) := rfl
  refine ⟨?_, ?_, ?_⟩
  · rw [hdef, hcons]; rfl
  · rw [hdef]; exact hlast
  · rw [hdef]; exact hchain

/-! ## Colors (`ToolManager.colorsMatch` / `hexToRgb`, app.js lines 288-293) -/

/-- One RGBA pixel: the four channel values of the image data at a cell. -/
structure RGBA where
  r : Nat
  g : Nat
  b : Nat
  a : Nat
  deriving DecidableEq, Repr

/-- `ToolManager.colorsMatch` (line 288): component-wise equality of the
four channels. -/
def colorsMatch (c1 c2 : RGBA) : Bool :=
  c1.r == c2.r && c1.g == c2.g && c1.b == c2.b && c1.a == c2.a

theorem colorsMatch_iff (c1 c2 : RGBA) :
    colorsMatch c1 c2 = true ↔ c1 = c2 := by
  cases c1
  cases c2
  simp [colorsMatch, and_assoc]

/-- The regex character class `[a-f\d]` under the case-insensitive flag:
a decimal digit or a letter in a-f or A-F. -/
def isHexClass (c : Char) : Bool :=
  ('0' ≤ c && c ≤ '9') || ('a' ≤ c && c ≤ 'f') || ('A' ≤ c && c ≤ 'F')

/-- `parseInt(·, 16)` of a single hex digit. -/
def hexDigitVal (c : Char) : Nat :=
  if '0' ≤ c && c ≤ '9' then c.toNat - '0'.toNat
  else if 'a' ≤ c && c ≤ 'f' then c.toNat - 'a'.toNat + 10
  else if 'A' ≤ c && c ≤ 'F' then c.toNat - 'A'.toNat + 10
  else 0

/-- The regex's optional leading `#?`. -/
def stripHash : List Char → List Char
  | '#' :: rest => rest
  | s => s

/-- `ToolManager.hexToRgb` (lines 290-293): a string matching
`/^#?([a-f\d]{2})([a-f\d]{2})([a-f\d]{2})$/i` parses to its three byte
values with alpha 255; any other string yields opaque black
`[0, 0, 0, 255]`. -/
def hexToRgb (s : List Char) : RGBA :=
  match stripHash s with
  | [c1, c2, c3, c4, c5, c6] =>
      if isHexClass c1 && isHexClass c2 && isHexClass c3 && isHexClass c4 &&
          isHexClass c5 && isHexClass c6 then
        ⟨hexDigitVal c1 * 16 + hexDigitVal c2,
         hexDigitVal c3 * 16 + hexDigitVal c4,
         hexDigitVal c5 * 16 + hexDigitVal c6, 255⟩
      else ⟨0, 0, 0, 255⟩
  | _ => ⟨0, 0, 0, 255⟩

/-! ## Flood fill (`ToolManager.floodFill`, app.js lines 249-268) -/

/-- A cell address `(x, y)` of the raster buffer. -/
abbrev Cell := Nat × Nat

/-- The RGBA image data, viewed per cell.  The source reads and writes the
flat array at `(y*width + x)*4`; every access in the modelled paths is in
bounds, where this indexing is injective, so a per-cell view is exact. -/
abbrev Grid := Cell → RGBA

/-- `ToolManager.setPixelData` (lines 283-286): write one cell. -/
def setPixelData (c : Cell) (v : RGBA) (g : Grid) : Grid :=
  fun d => if d = c then v else g d

/-- The four axis neighbours enqueued by `floodFill` (lines 261-264), in
source order with the source's bounds guards (`x > 0`, `x < width - 1`,
`y > 0`, `y < height - 1`). -/
def neighborQueue (w h : Nat) (c : Cell) : List Cell :=
  (if 0 < c.1 then [(c.1 - 1, c.2)] else []) ++
  (if c.1 < w - 1 then [(c.1 + 1, c.2)] else []) ++
  (if 0 < c.2 then [(c.1, c.2 - 1)] else []) ++
  (if c.2 < h - 1 then [(c.1, c.2 + 1)] else [])

/-- The `while (queue.length > 0)` loop of `floodFill`, with explicit fuel;
`floodFill_component` shows the fuel chosen by `floodFillRGBA` always
suffices. -/
def floodFillLoop (w h : Nat) (target fill : RGBA) :
    Nat → Grid → List Cell → Grid
  | 0, g, _ => g
  | _ + 1, g, [] => g
  | fuel + 1, g, c :: rest =>
      if colorsMatch (g c) target then
        floodFillLoop w h target fill fuel (setPixelData c fill g)
          (rest ++ neighborQueue w h c)
      else
        floodFillLoop w h target fill fuel g rest

/-- `ToolManager.floodFill` on an already-converted fill color: sample
`targetColor` at the seed, return unchanged if it equals the fill color,
else run the queue loop seeded with the start cell. -/
def floodFillRGBA (w h : Nat) (g : Grid) (sx sy : Nat)
    (fillRGBA : RGBA) : Grid :=
  let targetColor := g (sx, sy)
  if colorsMatch targetColor fillRGBA then g
  else floodFillLoop w h targetColor fillRGBA (5 * w * h + 1) g [(sx, sy)]

/-- `ToolManager.floodFill` as called in the source: the fill color arrives
as a hex string and is converted by `hexToRgb` (line 253). -/
def floodFill (w h : Nat) (g : Grid) (sx sy : Nat)
    (fillColor : List Char) : Grid :=
  floodFillRGBA w h g sx sy (hexToRgb fillColor)

/-- Cell `c` lies within the `w × h` buffer. -/
def inBoundsC (w h : Nat) (c : Cell) : Prop := c.1 < w ∧ c.2 < h

/-- 4-adjacency of cells (shared edge). -/
def adjacent (c d : Cell) : Prop :=
  (c.1 = d.1 ∧ (c.2 = d.2 + 1 ∨ d.2 = c.2 + 1)) ∨
  (c.2 = d.2 ∧ (c.1 = d.1 + 1 ∨ d.1 = c.1 + 1))

/-- Reachability from the seed through in-bounds cells whose color in
`orig` is `t`: the 4-connected component of `t`-colored cells containing
the seed. -/
inductive Reach (w h : Nat) (orig : Grid) (t : RGBA) (s : Cell) : Cell → Prop
  | refl : Reach w h orig t s s
  | step {c d : Cell} : Reach w h orig t s c → adjacent c d →
      inBoundsC w h d → orig d = t → Reach w h orig t s d

theorem mem_ite_singleton {α : Type} {p : Prop} [Decidable p] {a e : α} :
    (a ∈ if p then [e] else []) ↔ p ∧ a = e := by
  split_ifs with hp <;> simp [hp]

theorem mem_neighborQueue {w h x y : Nat} {d : Cell} :
    d ∈ neighborQueue w h (x, y) ↔
      (0 < x ∧ d = (x - 1, y)) ∨ (x < w - 1 ∧ d = (x + 1, y)) ∨
      (0 < y ∧ d = (x, y - 1)) ∨ (y < h - 1 ∧ d = (x, y + 1)) := by
  simp only [neighborQueue, List.mem_append, mem_ite_singleton]
  tauto

theorem neighborQueue_sound {w h : Nat} {c d : Cell}
    (hc : inBoundsC w h c) (hd : d ∈ neighborQueue w h c) :
    inBoundsC w h d ∧ adjacent c d := by
  obtain ⟨x, y⟩ := c
  obtain ⟨hx, hy⟩ := hc
  rcases mem_neighborQueue.mp hd with ⟨hg, hde⟩ | ⟨hg, hde⟩ | ⟨hg, hde⟩ |
    ⟨hg, hde⟩ <;> subst hde
  · exact ⟨⟨by omega, hy⟩, Or.inr ⟨rfl, Or.inl (by omega)⟩⟩
  · exact ⟨⟨by omega, hy⟩, Or.inr ⟨rfl, Or.inr rfl⟩⟩
  · exact ⟨⟨hx, by omega⟩, Or.inl ⟨rfl, Or.inl (by omega)⟩⟩
  · exact ⟨⟨hx, by omega⟩, Or.inl ⟨rfl, Or.inr rfl⟩⟩

theorem mem_neighborQueue_of_adjacent {w h : Nat} {c d : Cell}
    (hc : inBoundsC w h c) (hadj : adjacent c d) (hd : inBoundsC w h d) :
    d ∈ neighborQueue w h c := by
  obtain ⟨x, y⟩ := c
  obtain ⟨dx, dy⟩ := d
  obtain ⟨hx, hy⟩ := hc
  obtain ⟨hdx, hdy⟩ := hd
  rw [mem_neighborQueue]
  rcases hadj with ⟨h1, h2 | h2⟩ | ⟨h1, h2 | h2⟩ <;>
    simp only [Prod.mk.injEq] at h1 h2 ⊢ <;> omega

theorem neighborQueue_length_le (w h : Nat) (c : Cell) :
    (neighborQueue w h c).length ≤ 4 := by
  simp only [neighborQueue, List.length_append]
  split_ifs <;> simp

/-- All cells of a `w × h` buffer. -/
def allCells (w h : Nat) : Finset Cell :=
  Finset.range w ×ˢ Finset.range h

theorem mem_allCells {w h : Nat} {c : Cell} :
    c ∈ allCells w h ↔ inBoundsC w h c := by
  obtain ⟨x, y⟩ := c
  simp [allCells, inBoundsC, Finset.mem_product]

/-- Closing argument used when the queue is exhausted: with the recolored
set `R` reachable, seed-containing and closed under in-bounds `t`-colored
adjacency, `R` is exactly the component. -/
theorem floodFill_final (w h : Nat) (orig : Grid) (s : Cell) (t fill : RGBA)
    (g : Grid) (R : Finset Cell)
    (hg : ∀ c, g c = if c ∈ R then fill else orig c)
    (hR : ∀ c ∈ R, Reach w h orig t s c)
    (hseed : s ∈ R)
    (hclosed : ∀ c ∈ R, ∀ d, adjacent c d → inBoundsC w h d →
        orig d = t → d ∈ R) :
    (∀ c, Reach w h orig t s c → g c = fill) ∧
    (∀ c, ¬ Reach w h orig t s c → g c = orig c) := by
  have hmem : ∀ c, Reach w h orig t s c → c ∈ R := by
    intro c hc
    induction hc with
    | refl => exact hseed
    | step hr hadj hb hcol ih => exact hclosed _ ih _ hadj hb hcol
  constructor
  · intro c hc
    rw [hg c, if_pos (hmem c hc)]
  · intro c hc
    rw [hg c, if_neg (fun hmemR => hc (hR c hmemR))]

/-- Invariant argument for the flood-fill loop: `R` is the set of already
recolored cells, the queue contains only in-bounds cells that are the seed
or adjacent to a recolored cell, recoloring is closed up to pending queue
entries, and the fuel dominates the remaining work. -/
theorem floodFillLoop_correct (w h : Nat) (orig : Grid) (s : Cell)
    (t fill : RGBA) (hts : orig s = t) (htf : fill ≠ t) :
    ∀ (fuel : Nat) (g : Grid) (Q : List Cell) (R : Finset Cell),
      (∀ c, g c = if c ∈ R then fill else orig c) →
      (∀ c ∈ R, Reach w h orig t s c) →
      (∀ c ∈ R, inBoundsC w h c) →
      (∀ q ∈ Q, inBoundsC w h q) →
      (∀ q ∈ Q, q = s ∨ ∃ c ∈ R, adjacent c q) →
      (s ∈ R ∨ s ∈ Q) →
      (∀ c ∈ R, ∀ d, adjacent c d → inBoundsC w h d → orig d = t →
          d ∈ R ∨ d ∈ Q) →
      Q.length + 5 * ((allCells w h).filter
          (fun c => c ∉ R ∧ orig c = t)).card ≤ fuel →
      (∀ c, Reach w h orig t s c →
          floodFillLoop w h t fill fuel g Q c = fill) ∧
      (∀ c, ¬ Reach w h orig t s c →
          floodFillLoop w h t fill fuel g Q c = orig c) := by
  intro fuel
  induction fuel with
  | zero =>
      intro g Q R hg hR hRb hQb hQadj hseed hclosed hfuel
      have hQnil : Q = [] := by
        cases Q with
        | nil => rfl
        | cons a l => simp at hfuel
      subst hQnil
      exact floodFill_final w h orig s t fill g R hg hR
        (hseed.resolve_right (by simp))
        (fun c hc d hadj hb hcol =>
          (hclosed c hc d hadj hb hcol).resolve_right (by simp))
  | succ f ih =>
      intro g Q R hg hR hRb hQb hQadj hseed hclosed hfuel
      cases Q with
      | nil =>
          exact floodFill_final w h orig s t fill g R hg hR
            (hseed.resolve_right (by simp))
            (fun c hc d hadj hb hcol =>
              (hclosed c hc d hadj hb hcol).resolve_right (by simp))
      | cons q rest =>
          by_cases hmatch : colorsMatch (g q) t = true
          · have hstep : floodFillLoop w h t fill (f + 1) g (q :: rest)
                = floodFillLoop w h t fill f (setPixelData q fill g)
                    (rest ++ neighborQueue w h q) := by
              simp only [floodFillLoop, if_pos hmatch]
            have hgq : g q = t := (colorsMatch_iff _ _).mp hmatch
            have hqR : q ∉ R := by
              intro hmem
              rw [hg q, if_pos hmem] at hgq
              exact htf hgq
            have horigq : orig q = t := by
              have hq := hg q
              rw [if_neg hqR] at hq
              rw [← hq]
              exact hgq
            have hqb : inBoundsC w h q := hQb q (List.mem_cons_self q rest)
            have hreachq : Reach w h orig t s q := by
              rcases hQadj q (List.mem_cons_self q rest) with hq |
                ⟨c, hcR, hadj⟩
              · rw [hq]; exact Reach.refl
              · exact Reach.step (hR c hcR) hadj hqb horigq
            have hg' : ∀ c, setPixelData q fill g c
                = if c ∈ insert q R then fill else orig c := by
              intro c
              by_cases hc : c = q
              · subst hc
                simp [setPixelData, Finset.mem_insert_self]
              · simp only [setPixelData, if_neg hc, hg c]
                have hmem : c ∈ insert q R ↔ c ∈ R := by
                  simp [Finset.mem_insert, hc]
                by_cases hcR : c ∈ R
                · rw [if_pos hcR, if_pos (hmem.mpr hcR)]
                · rw [if_neg hcR, if_neg (fun hmm => hcR (hmem.mp hmm))]
            have hR' : ∀ c ∈ insert q R, Reach w h orig t s c := by
              intro c hc
              rcases Finset.mem_insert.mp hc with hc | hc
              · rw [hc]; exact hreachq
              · exact hR c hc
            have hRb' : ∀ c ∈ insert q R, inBoundsC w h c := by
              intro c hc
              rcases Finset.mem_insert.mp hc with hc | hc
              · rw [hc]; exact hqb
              · exact hRb c hc
            have hQb' : ∀ p ∈ rest ++ neighborQueue w h q,
                inBoundsC w h p := by
              intro p hp
              rcases List.mem_append.mp hp with hp | hp
              · exact hQb p (List.mem_cons_of_mem q hp)
              · exact (neighborQueue_sound hqb hp).1
            have hQadj' : ∀ p ∈ rest ++ neighborQueue w h q,
                p = s ∨ ∃ c ∈ insert q R, adjacent c p := by
              intro p hp
              rcases List.mem_append.mp hp with hp | hp
              · rcases hQadj p (List.mem_cons_of_mem q hp) with hp' |
                  ⟨c, hcR, hadj⟩
                · exact Or.inl hp'
                · exact Or.inr ⟨c, Finset.mem_insert_of_mem hcR, hadj⟩
              · exact Or.inr ⟨q, Finset.mem_insert_self q R,
                  (neighborQueue_sound hqb hp).2⟩
            have hseed' : s ∈ insert q R ∨ s ∈ rest ++ neighborQueue w h q := by
              rcases hseed with hs | hs
              · exact Or.inl (Finset.mem_insert_of_mem hs)
              · rcases List.mem_cons.mp hs with hs | hs
                · exact Or.inl (by rw [hs]; exact Finset.mem_insert_self q R)
                · exact Or.inr (List.mem_append_left _ hs)
            have hclosed' : ∀ c ∈ insert q R, ∀ d, adjacent c d →
                inBoundsC w h d → orig d = t →
                d ∈ insert q R ∨ d ∈ rest ++ neighborQueue w h q := by
              intro c hc d hadj hb hcol
              rcases Finset.mem_insert.mp hc with hc | hc
              · subst hc
                exact Or.inr (List.mem_append_right _
                  (mem_neighborQueue_of_adjacent hqb hadj hb))
              · rcases hclosed c hc d hadj hb hcol with hd | hd
                · exact Or.inl (Finset.mem_insert_of_mem hd)
                · rcases List.mem_cons.mp hd with hd | hd
                  · exact Or.inl (by rw [hd]; exact Finset.mem_insert_self q R)
                  · exact Or.inr (List.mem_append_left _ hd)
            have hqfil : q ∈ (allCells w h).filter
                (fun c => c ∉ R ∧ orig c = t) :=
              Finset.mem_filter.mpr ⟨mem_allCells.mpr hqb, hqR, horigq⟩
            have hfeq : (allCells w h).filter
                  (fun c => c ∉ insert q R ∧ orig c = t)
                = ((allCells w h).filter
                    (fun c => c ∉ R ∧ orig c = t)).erase q := by
              ext c
              simp only [Finset.mem_filter, Finset.mem_erase,
                Finset.mem_insert]
              constructor
              · rintro ⟨hall, hnot, hcol⟩
                exact ⟨fun he => hnot (Or.inl he), hall,
                  fun hm => hnot (Or.inr hm), hcol⟩
              · rintro ⟨hne, hall, hnot, hcol⟩
                exact ⟨hall, fun hm => by
                  rcases hm with hm | hm
                  · exact hne hm
                  · exact hnot hm, hcol⟩
            have hcard : ((allCells w h).filter
                  (fun c => c ∉ insert q R ∧ orig c = t)).card
                = ((allCells w h).filter
                    (fun c => c ∉ R ∧ orig c = t)).card - 1 := by
              rw [hfeq, Finset.card_erase_of_mem hqfil]
            have hpos : 1 ≤ ((allCells w h).filter
                (fun c => c ∉ R ∧ orig c = t)).card :=
              Finset.card_pos.mpr ⟨q, hqfil⟩
            have hnlen := neighborQueue_length_le w h q
            have hfuel' : (rest ++ neighborQueue w h q).length
                + 5 * ((allCells w h).filter
                    (fun c => c ∉ insert q R ∧ orig c = t)).card ≤ f := by
              simp only [List.length_cons] at hfuel
              simp only [List.length_append, hcard]
              omega
            simp only [hstep]
            exact ih (setPixelData q fill g) (rest ++ neighborQueue w h q)
              (insert q R) hg' hR' hRb' hQb' hQadj' hseed' hclosed' hfuel'
          · have hstep : floodFillLoop w h t fill (f + 1) g (q :: rest)
                = floodFillLoop w h t fill f g rest := by
              simp only [floodFillLoop, if_neg hmatch]
            have hseed' : s ∈ R ∨ s ∈ rest := by
              rcases hseed with hs | hs
              · exact Or.inl hs
              · rcases List.mem_cons.mp hs with hs | hs
                · subst hs
                  left
                  by_contra hsR
                  apply hmatch
                  apply (colorsMatch_iff _ _).mpr
                  rw [hg s, if_neg hsR]
                  exact hts
                · exact Or.inr hs
            have hclosed' : ∀ c ∈ R, ∀ d, adjacent c d → inBoundsC w h d →
                orig d = t → d ∈ R ∨ d ∈ rest := by
              intro c hc d hadj hb hcol
              rcases hclosed c hc d hadj hb hcol with hd | hd
              · exact Or.inl hd
              · rcases List.mem_cons.mp hd with hd | hd
                · subst hd
                  left
                  by_contra hdR
                  apply hmatch
                  apply (colorsMatch_iff _ _).mpr
                  rw [hg d, if_neg hdR]
                  exact hcol
                · exact Or.inr hd
            have hfuel' : rest.length + 5 * ((allCells w h).filter
                (fun c => c ∉ R ∧ orig c = t)).card ≤ f := by
              simp only [List.length_cons] at hfuel
              omega
            simp only [hstep]
            exact ih g rest R hg hR hRb
              (fun p hp => hQb p (List.mem_cons_of_mem q hp))
              (fun p hp => hQadj p (List.mem_cons_of_mem q hp))
              hseed' hclosed' hfuel'

/-- C4: for an in-bounds seed and a fill color differing from the seed's
color, flood fill writes the fill color to exactly the cells of the
4-connected component of `targetColor`-colored cells containing the seed,
and leaves every other cell (in particular every cell whose original color
differs from `targetColor`) at its original color. -/
theorem floodFill_component (w h : Nat) (orig : Grid) (sx sy : Nat)
    (fillRGBA : RGBA)
    (hb : inBoundsC w h (sx, sy))
    (hne : fillRGBA ≠ orig (sx, sy)) :
    (∀ c, Reach w h orig (orig (sx, sy)) (sx, sy) c →
        floodFillRGBA w h orig sx sy fillRGBA c = fillRGBA) ∧
    (∀ c, ¬ Reach w h orig (orig (sx, sy)) (sx, sy) c →
        floodFillRGBA w h orig sx sy fillRGBA c = orig c) := by
  have hmatchF : colorsMatch (orig (sx, sy)) fillRGBA = false := by
    rw [Bool.eq_false_iff]
    intro hm
    exact hne ((colorsMatch_iff _ _).mp hm).symm
  have hdef : floodFillRGBA w h orig sx sy fillRGBA
      = floodFillLoop w h (orig (sx, sy)) fillRGBA (5 * w * h + 1) orig
          [(sx, sy)] := by
    simp only [floodFillRGBA, hmatchF]
    rfl
  simp only [hdef]
  have hcardall : (allCells w h).card = w * h := by
    simp [allCells]
  have hcard := Finset.card_filter_le (allCells w h)
    (fun c => c ∉ (∅ : Finset Cell) ∧ orig c = orig (sx, sy))
  apply floodFillLoop_correct w h orig (sx, sy) (orig (sx, sy)) fillRGBA rfl
      hne (5 * w * h + 1) orig [(sx, sy)] ∅
  · intro c
    simp
  · intro c hc
    exact absurd hc (Finset.not_mem_empty c)
  · intro c hc
    exact absurd hc (Finset.not_mem_empty c)
  · intro p hp
    rcases List.mem_singleton.mp hp with rfl
    exact hb
  · intro p hp
    exact Or.inl (List.mem_singleton.mp hp)
  · exact Or.inr (List.mem_singleton.mpr rfl)
  · intro c hc
    exact absurd hc (Finset.not_mem_empty c)
  · have hle : ((allCells w h).filter
        (fun c => c ∉ (∅ : Finset Cell) ∧ orig c = orig (sx, sy))).card
          ≤ w * h := le_trans hcard (le_of_eq hcardall)
    have h5 : 5 * w * h = 5 * (w * h) := by ring
    simp only [List.length_singleton, h5]
    omega

/-- A concrete 2×2 buffer for witnesses: cell `(1, 1)` carries a distinct
color, every other cell is `⟨0, 0, 0, 0⟩`. -/
def demoGrid : Grid :=
  fun c => if c = (1, 1) then ⟨9, 9, 9, 9⟩ else ⟨0, 0, 0, 0⟩

/-- C4 witness: on the concrete 2×2 buffer, filling from seed `(0, 0)`
recolors the reachable cell `(0, 1)` and leaves the differently-colored
cell `(1, 1)` unchanged. -/
theorem floodFill_component_witness :
    inBoundsC 2 2 (0, 0) ∧
    (⟨5, 5, 5, 5⟩ : RGBA) ≠ demoGrid (0, 0) ∧
    floodFillRGBA 2 2 demoGrid 0 0 ⟨5, 5, 5, 5⟩ (0, 1) = ⟨5, 5, 5, 5⟩ ∧
    floodFillRGBA 2 2 demoGrid 0 0 ⟨5, 5, 5, 5⟩ (1, 1) = demoGrid (1, 1) := by
  have hb : inBoundsC 2 2 (0, 0) := ⟨by omega, by omega⟩
  have hne : (⟨5, 5, 5, 5⟩ : RGBA) ≠ demoGrid (0, 0) := by decide
  refine ⟨hb, hne, ?_, ?_⟩
  · exact (floodFill_component 2 2 demoGrid 0 0 ⟨5, 5, 5, 5⟩ hb hne).1 (0, 1)
      (Reach.step Reach.refl (Or.inl ⟨rfl, Or.inr rfl⟩)
        ⟨by omega, by omega⟩ (by decide))
  · apply (floodFill_component 2 2 demoGrid 0 0 ⟨5, 5, 5, 5⟩ hb hne).2 (1, 1)
    intro hr
    cases hr with
    | step hr hadj hb2 hcol => exact absurd hcol (by decide)

/-- When the seed's color already equals the fill color, `floodFill` is a
no-op on the whole buffer (the early `colorsMatch` return). -/
theorem floodFillRGBA_of_match {w h : Nat} {g : Grid} {sx sy : Nat}
    {fill : RGBA} (hm : g (sx, sy) = fill) :
    floodFillRGBA w h g sx sy fill = g := by
  have hc : colorsMatch (g (sx, sy)) fill = true := (colorsMatch_iff _ _).mpr hm
  simp only [floodFillRGBA, hc]
  rfl

/-- C7: flood fill is idempotent: a second `fill(seed, C)` on the result of
`fill(seed, C)` changes nothing, and when the seed's color already equals
the (converted) fill color the fill is a no-op on the whole buffer. -/
theorem floodFill_idempotent (w h : Nat) (g : Grid) (sx sy : Nat)
    (fillColor : List Char) (hb : inBoundsC w h (sx, sy)) :
    floodFill w h (floodFill w h g sx sy fillColor) sx sy fillColor
      = floodFill w h g sx sy fillColor ∧
    (g (sx, sy) = hexToRgb fillColor → floodFill w h g sx sy fillColor = g) := by
  constructor
  · by_cases hm : g (sx, sy) = hexToRgb fillColor
    · have h1 : floodFill w h g sx sy fillColor = g := floodFillRGBA_of_match hm
      rw [h1]
      exact h1
    · have hFseed : floodFill w h g sx sy fillColor (sx, sy)
          = hexToRgb fillColor :=
        (floodFill_component w h g sx sy (hexToRgb fillColor) hb
          (fun e => hm e.symm)).1 (sx, sy) Reach.refl
      exact floodFillRGBA_of_match hFseed
  · intro hm
    exact floodFillRGBA_of_match hm

/-- The hex string "#ff0000" as a character list. -/
def hexRed : List Char := ['#', 'f', 'f', '0', '0', '0', '0']

/-- C7 witness: idempotence at the concrete 2×2 buffer, seed `(0, 0)` and
fill string "#ff0000". -/
theorem floodFill_idempotent_witness :
    floodFill 2 2 (floodFill 2 2 demoGrid 0 0 hexRed) 0 0 hexRed
      = floodFill 2 2 demoGrid 0 0 hexRed :=
  (floodFill_idempotent 2 2 demoGrid 0 0 hexRed ⟨by omega, by omega⟩).1

/-! ## Hex color strings (`UIController.buildColor`, app.js lines 431-434,
and the `hexToRgb` fallback) -/

/-- The test of the regex `/^#?([a-f\d]{2})([a-f\d]{2})([a-f\d]{2})$/i`:
an optional '#' followed by exactly six hex-class characters. -/
def matchesHex6 (s : List Char) : Bool :=
  match stripHash s with
  | [c1, c2, c3, c4, c5, c6] =>
      isHexClass c1 && isHexClass c2 && isHexClass c3 && isHexClass c4 &&
        isHexClass c5 && isHexClass c6
  | _ => false

theorem hexToRgb_eq_black_of_not_match (s : List Char)
    (hm : matchesHex6 s = false) : hexToRgb s = ⟨0, 0, 0, 255⟩ := by
  unfold hexToRgb
  unfold matchesHex6 at hm
  rcases hl : stripHash s with _ |
    ⟨c1, _ | ⟨c2, _ | ⟨c3, _ | ⟨c4, _ | ⟨c5, _ | ⟨c6, _ | ⟨c7, t⟩⟩⟩⟩⟩⟩⟩ <;>
    simp_all

theorem matchesHex6_eq_false_of_length_ne (s : List Char)
    (h : (stripHash s).length ≠ 6) : matchesHex6 s = false := by
  unfold matchesHex6
  rcases hl : stripHash s with _ |
    ⟨c1, _ | ⟨c2, _ | ⟨c3, _ | ⟨c4, _ | ⟨c5, _ | ⟨c6, _ | ⟨c7, t⟩⟩⟩⟩⟩⟩⟩ <;>
    simp_all

/-- `String.prototype.padStart(2, '0')`. -/
def padStart2 (s : List Char) : List Char :=
  if s.length < 2 then List.replicate (2 - s.length) '0' ++ s else s

theorem padStart2_length (s : List Char) : 2 ≤ (padStart2 s).length := by
  unfold padStart2
  split_ifs with hlt
  · simp only [List.length_append, List.length_replicate]
    omega
  · omega

/-- `UIController.buildColor` (app.js lines 431-434): lowercase `hex6` when
the alpha is full, else lowercase `hex6` followed by the two-digit
lowercase hex of the (integer) alpha.  `Nat.toDigits 16` is
`Number.prototype.toString(16)` for a natural number. -/
def buildColor (hex6 : List Char) (alpha : Nat) : List Char :=
  if 255 ≤ alpha then hex6.map Char.toLower
  else hex6.map Char.toLower ++ padStart2 (Nat.toDigits 16 alpha)

/-- C9: every string rejected by the `hexToRgb` regex falls back to opaque
black, in particular every eight-digit `#rrggbbaa` string `buildColor`
stores in `currentColor` when the alpha is below 255; consequently a flood
fill with such a `currentColor` runs with fill color opaque black. -/
theorem hexToRgb_nonmatching_black :
    (∀ s : List Char, matchesHex6 s = false →
        hexToRgb s = ⟨0, 0, 0, 255⟩) ∧
    (∀ (cs : List Char) (alpha : Nat), cs.length = 6 → alpha < 255 →
        matchesHex6 (buildColor ('#' :: cs) alpha) = false ∧
        hexToRgb (buildColor ('#' :: cs) alpha) = ⟨0, 0, 0, 255⟩) ∧
    (∀ (w h : Nat) (g : Grid) (sx sy : Nat) (s : List Char),
        matchesHex6 s = false →
        floodFill w h g sx sy s = floodFillRGBA w h g sx sy ⟨0, 0, 0, 255⟩) := by
  refine ⟨hexToRgb_eq_black_of_not_match, ?_, ?_⟩
  · intro cs alpha hlen halpha
    have hpad := padStart2_length (Nat.toDigits 16 alpha)
    have hlow : Char.toLower '#' = '#' := by decide
    have hbc : buildColor ('#' :: cs) alpha
        = '#' :: (cs.map Char.toLower ++ padStart2 (Nat.toDigits 16 alpha)) := by
      unfold buildColor
      rw [if_neg (by omega), List.map_cons, hlow, List.cons_append]
    have hstrip : stripHash ('#' ::
        (cs.map Char.toLower ++ padStart2 (Nat.toDigits 16 alpha)))
        = cs.map Char.toLower ++ padStart2 (Nat.toDigits 16 alpha) := rfl
    have hmf : matchesHex6 (buildColor ('#' :: cs) alpha) = false := by
      apply matchesHex6_eq_false_of_length_ne
      rw [hbc, hstrip]
      simp only [List.length_append, List.length_map, hlen]
      omega
    exact ⟨hmf, hexToRgb_eq_black_of_not_match _ hmf⟩
  · intro w h g sx sy s hm
    unfold floodFill
    rw [hexToRgb_eq_black_of_not_match s hm]

/-- C9 witness: the out-of-vocabulary string "xy" and the concrete
`buildColor("#aabbcc", 128) = "#aabbcc80"` both fall back to black, and a
flood fill with "xy" runs with fill color black. -/
theorem hexToRgb_nonmatching_black_witness :
    (hexToRgb ['x', 'y'] = ⟨0, 0, 0, 255⟩) ∧
    (matchesHex6 (buildColor ['#', 'a', 'a', 'b', 'b', 'c', 'c'] 128) = false ∧
      hexToRgb (buildColor ['#', 'a', 'a', 'b', 'b', 'c', 'c'] 128)
        = ⟨0, 0, 0, 255⟩) ∧
    (floodFill 2 2 demoGrid 0 0 ['x', 'y']
      = floodFillRGBA 2 2 demoGrid 0 0 ⟨0, 0, 0, 255⟩) :=
  ⟨hexToRgb_nonmatching_black.1 ['x', 'y'] (by decide),
   hexToRgb_nonmatching_black.2.1 ['a', 'a', 'b', 'b', 'c', 'c'] 128
     (by decide) (by decide),
   hexToRgb_nonmatching_black.2.2 2 2 demoGrid 0 0 ['x', 'y'] (by decide)⟩

/-! ## Interaction (`ToolManager.execute`, app.js lines 192-217, and the
mouse handlers of `App.initDrawingEvents`, lines 670-760) -/

/-- `state.currentTool` values. -/
inductive Tool
  | pencil
  | eraser
  | fill
  | eyedropper
  | hand
  deriving DecidableEq, Repr

/-- The fields of `State` touched by the modelled interaction paths, the
work-canvas buffer, and `ToolManager.lastX`/`lastY`.  Snapshots stored in
the history stacks are the buffer contents (the source serializes them as
data URLs; nothing inspects them). -/
structure Editor where
  width : Nat
  height : Nat
  currentColor : List Char
  currentTool : Tool
  brushSize : Nat
  isDrawing : Bool
  isPanning : Bool
  history : List Grid
  redoStack : List Grid
  buffer : Grid
  lastX : Int
  lastY : Int

/-- `ToolManager.drawPixel` (lines 219-234) as a buffer update: every cell
of the clipped stamp rectangle is cleared to transparent black (eraser,
`clearRect`) or painted over with the current color (`fillRect`).  `blend`
abstracts the host canvas compositing of the CSS color string over the
existing pixel, which is external rendering behavior; no modelled claim
depends on the painted value.  `brushSize || 1` is the source's falsy
guard. -/
def drawPixelB (blend : List Char → RGBA → RGBA) (e : Editor)
    (x y : Int) : Editor :=
  let b := if e.brushSize = 0 then 1 else e.brushSize
  { e with buffer := fun c =>
      if stampHit e.width e.height b x y (c.1 : Int) (c.2 : Int) then
        if e.currentTool = Tool.eraser then ⟨0, 0, 0, 0⟩
        else blend e.currentColor (e.buffer c)
      else e.buffer c }

/-- `ToolManager.drawLine` (lines 236-247) as performed on the buffer: one
`drawPixel` per visited cell, in visiting order. -/
def drawLineB (blend : List Char → RGBA → RGBA) (e : Editor)
    (x0 y0 x1 y1 : Int) : Editor :=
  (drawLine x0 y0 x1 y1).foldl (fun e' p => drawPixelB blend e' p.1 p.2) e

/-- `ToolManager.pickColor` (lines 270-276): sample the 1×1 pixel at
`(x, y)`; when its alpha is positive, store the `#rrggbb` hex of the sample
(`((1<<24) + (r<<16) + (g<<8) + b).toString(16).slice(1)`) in
`currentColor`. -/
def pickColor (e : Editor) (x y : Int) : Editor :=
  let data := e.buffer (x.toNat, y.toNat)
  if 0 < data.a then
    { e with currentColor :=
        '#' :: (Nat.toDigits 16
          (16777216 + data.r * 65536 + data.g * 256 + data.b)).drop 1 }
  else e

/-- The three `execute` actions.  `stop` is the source's `'end'` action;
its only call site (`window.onmouseup`, line 757) passes no coordinates,
and in JS every `<`/`>=` comparison against `undefined` is false, so the
bounds guard never fires on it. -/
inductive ToolAction
  | start (x y : Int)
  | move (x y : Int)
  | stop
  deriving DecidableEq, Repr

/-- `ToolManager.execute` (lines 192-217).  The Bool is whether the source
returned `'SHOULD_SAVE_HISTORY'`. -/
def execute (blend : List Char → RGBA → RGBA) (e : Editor)
    (a : ToolAction) : Editor × Bool :=
  match a with
  | .start x y =>
      if x < 0 ∨ (e.width : Int) ≤ x ∨ y < 0 ∨ (e.height : Int) ≤ y then
        (e, false)
      else
        let e1 := { e with isDrawing := true }
        match e.currentTool with
        | Tool.fill =>
            let nb := floodFill e1.width e1.height e1.buffer x.toNat
              y.toNat e1.currentColor
            ({ e1 with buffer := nb }, false)
        | Tool.eyedropper => (pickColor e1 x y, false)
        | _ =>
            let e2 := drawPixelB blend e1 x y
            ({ e2 with lastX := x, lastY := y }, false)
  | .move x y =>
      if x < 0 ∨ (e.width : Int) ≤ x ∨ y < 0 ∨ (e.height : Int) ≤ y then
        (e, false)
      else if e.isDrawing = false then (e, false)
      else if e.currentTool = Tool.pencil ∨ e.currentTool = Tool.eraser then
        let e2 := drawLineB blend e e.lastX e.lastY x y
        ({ e2 with lastX := x, lastY := y }, false)
      else (e, false)
  | .stop =>
      if e.isDrawing then ({ e with isDrawing := false }, true)
      else (e, false)

/-- `state.saveHistory(this.workCanvas.toDataURL())`: push a snapshot of
the buffer through `State.saveHistory`. -/
def saveHistoryE (e : Editor) : Editor :=
  { e with
    history := (saveHistory (⟨e.history, e.redoStack⟩ : HState Grid)
      e.buffer).history,
    redoStack := (saveHistory (⟨e.history, e.redoStack⟩ : HState Grid)
      e.buffer).redoStack }

/-- The left-button, non-alt `canvas.onmousedown` path (lines 672-681):
start panning when already panning or the hand tool is active; otherwise
`execute('start', x, y)`, committing a snapshot exactly when it signals. -/
def onMouseDown (blend : List Char → RGBA → RGBA) (e : Editor)
    (x y : Int) : Editor :=
  if e.isPanning ∨ e.currentTool = Tool.hand then { e with isPanning := true }
  else
    let p := execute blend e (ToolAction.start x y)
    if p.2 then saveHistoryE p.1 else p.1

/-- `window.onmouseup` (lines 756-760): `execute('end')`, commit a snapshot
when signalled, then clear `isPanning`. -/
def onMouseUp (blend : List Char → RGBA → RGBA) (e : Editor) : Editor :=
  let p := execute blend e ToolAction.stop
  let e1 := if p.2 then saveHistoryE p.1 else p.1
  { e1 with isPanning := false }

/-- C8: an out-of-bounds `start` or `move` returns no commit signal and
leaves the entire editor state (fields, buffer, history, redoStack)
unchanged. -/
theorem execute_oob_noop (blend : List Char → RGBA → RGBA) (e : Editor)
    (x y : Int)
    (hoob : x < 0 ∨ (e.width : Int) ≤ x ∨ y < 0 ∨ (e.height : Int) ≤ y) :
    execute blend e (ToolAction.start x y) = (e, false) ∧
    execute blend e (ToolAction.move x y) = (e, false) := by
  constructor <;> simp only [execute, if_pos hoob]

/-- Fields of `pickColor` other than `currentColor` are untouched. -/
theorem pickColor_fields (e : Editor) (x y : Int) :
    (pickColor e x y).buffer = e.buffer ∧
    (pickColor e x y).history = e.history ∧
    (pickColor e x y).redoStack = e.redoStack ∧
    (pickColor e x y).isDrawing = e.isDrawing ∧
    (pickColor e x y).isPanning = e.isPanning := by
  simp only [pickColor]
  split_ifs <;> exact ⟨rfl, rfl, rfl, rfl, rfl⟩

/-- C1 amended: for an eyedropper interaction (in-bounds `start`, then
`end`), the buffer is unchanged and `currentColor` is updated by the
sample, but the interaction *does* consume a history slot: `start` sets
`isDrawing` even for the eyedropper, so `end` signals a commit, and the
mouseup handler pushes a snapshot of the (unchanged) buffer and clears
`redoStack` unconditionally. -/
theorem eyedropper_interaction (blend : List Char → RGBA → RGBA)
    (e : Editor) (x y : Int)
    (htool : e.currentTool = Tool.eyedropper)
    (hpan : e.isPanning = false)
    (hx0 : 0 ≤ x) (hxw : x < (e.width : Int))
    (hy0 : 0 ≤ y) (hyh : y < (e.height : Int)) :
    (onMouseUp blend (onMouseDown blend e x y)).buffer = e.buffer ∧
    (onMouseUp blend (onMouseDown blend e x y)).history
      = (saveHistory (⟨e.history, e.redoStack⟩ : HState Grid)
          e.buffer).history ∧
    (onMouseUp blend (onMouseDown blend e x y)).redoStack = [] ∧
    (onMouseUp blend (onMouseDown blend e x y)).isDrawing = false ∧
    (onMouseUp blend (onMouseDown blend e x y)).currentColor
      = (pickColor e x y).currentColor := by
  have hstart : execute blend e (ToolAction.start x y)
      = (pickColor { e with isDrawing := true } x y, false) := by
    simp only [execute, htool]
    rw [if_neg (by omega)]
  have hmd : onMouseDown blend e x y
      = pickColor { e with isDrawing := true } x y := by
    unfold onMouseDown
    rw [if_neg (by simp [hpan, htool]), hstart]
    rfl
  obtain ⟨hpb, hph, hpr, hpd, hpp⟩ :=
    pickColor_fields { e with isDrawing := true } x y
  have hpd' : (pickColor { e with isDrawing := true } x y).isDrawing
      = true := by rw [hpd]
  have hstop : execute blend (pickColor { e with isDrawing := true } x y)
        ToolAction.stop
      = ({ pickColor { e with isDrawing := true } x y with
            isDrawing := false }, true) := by
    simp only [execute, hpd']
    rfl
  have hmu : onMouseUp blend (onMouseDown blend e x y)
      = { saveHistoryE { pickColor { e with isDrawing := true } x y with
            isDrawing := false } with isPanning := false } := by
    rw [hmd]
    unfold onMouseUp
    rw [hstop]
    rfl
  rw [hmu]
  refine ⟨?_, ?_, rfl, rfl, ?_⟩
  · simp only [saveHistoryE, hpb]
  · simp only [saveHistoryE, hpb, hph, hpr]
  · show (pickColor { e with isDrawing := true } x y).currentColor
      = (pickColor e x y).currentColor
    simp only [pickColor]
    split_ifs <;> rfl

/-- A concrete opaque-paint compositing function for closed statements. -/
def demoBlend : List Char → RGBA → RGBA := fun c _ => hexToRgb c

/-- A concrete editor over the 2×2 demo buffer, eyedropper active. -/
def demoEditorEye : Editor :=
  { width := 2, height := 2, currentColor := hexRed,
    currentTool := Tool.eyedropper, brushSize := 1, isDrawing := false,
    isPanning := false, history := [demoGrid], redoStack := [demoGrid],
    buffer := demoGrid, lastX := -1, lastY := -1 }

/-- C1 counterexample: on a concrete eyedropper click at `(0, 0)` the
history is not unchanged — it has gained a snapshot (and the redo stack
was cleared). -/
theorem eyedropper_consumes_history_cex :
    (onMouseUp demoBlend (onMouseDown demoBlend demoEditorEye 0 0)).history
      ≠ demoEditorEye.history ∧
    (onMouseUp demoBlend (onMouseDown demoBlend demoEditorEye 0 0)).redoStack
      ≠ demoEditorEye.redoStack := by
  constructor
  · intro hcontra
    have h2 : (onMouseUp demoBlend
        (onMouseDown demoBlend demoEditorEye 0 0)).history.length = 2 := rfl
    have h1 : demoEditorEye.history.length = 1 := rfl
    rw [hcontra, h1] at h2
    exact absurd h2 (by omega)
  · intro hcontra
    have h2 : (onMouseUp demoBlend
        (onMouseDown demoBlend demoEditorEye 0 0)).redoStack.length = 0 := rfl
    have h1 : demoEditorEye.redoStack.length = 1 := rfl
    rw [hcontra, h1] at h2
    exact absurd h2 (by omega)

/-- C1 amended witness: the concrete eyedropper click, with the amended
conclusions instantiated. -/
theorem eyedropper_interaction_witness :
    (onMouseUp demoBlend (onMouseDown demoBlend demoEditorEye 0 0)).buffer
      = demoEditorEye.buffer ∧
    (onMouseUp demoBlend (onMouseDown demoBlend demoEditorEye 0 0)).history
      = (saveHistory
          (⟨demoEditorEye.history, demoEditorEye.redoStack⟩ : HState Grid)
          demoEditorEye.buffer).history ∧
    (onMouseUp demoBlend (onMouseDown demoBlend demoEditorEye 0 0)).redoStack
      = [] :=
  ⟨(eyedropper_interaction demoBlend demoEditorEye 0 0 rfl rfl
      (by decide) (by decide) (by decide) (by decide)).1,
   (eyedropper_interaction demoBlend demoEditorEye 0 0 rfl rfl
      (by decide) (by decide) (by decide) (by decide)).2.1,
   (eyedropper_interaction demoBlend demoEditorEye 0 0 rfl rfl
      (by decide) (by decide) (by decide) (by decide)).2.2.1⟩

/-- C8 witness: a concrete out-of-bounds click on the demo editor. -/
theorem execute_oob_noop_witness :
    execute demoBlend demoEditorEye (ToolAction.start 5 0)
      = (demoEditorEye, false) ∧
    execute demoBlend demoEditorEye (ToolAction.move 5 0)
      = (demoEditorEye, false) :=
  execute_oob_noop demoBlend demoEditorEye 5 0 (by right; left; decide)

end PixelNoKiseki
